import Mathlib

/-!
Verification of the fastfea feature-transformation framework
(`src/transformer.hpp`, `src/main.cpp`).

The C++ code is shallowly embedded: a `Transformer<From, To>` object is a
state type together with its four (virtual) methods.  A thrown C++
exception (`std::unordered_map::at` on a missing key) is modelled by
`Option`: `none` means the call raised and the computation aborted.
`double` one-hot entries are modelled by `ℚ` (only the exactly
representable literals `0.0` and `1.0` occur and no arithmetic is done on
them).  `std::unordered_map<From, int>` is modelled by an association list
`List (From × Nat)`: hashing only affects bucket layout, never the
key-lookup semantics; insertion appends the new key, which also records
the insertion order that `_count++` creates.
-/

set_option autoImplicit false

namespace Fastfea

universe u v

/-- A `Transformer<From, To>` object of `transformer.hpp`: the (hidden)
state type `σ` plus the four methods `step`, `finalize`, `transform` and
`is_finalized`.  `step` and `finalize` return the updated state (`none` =
a C++ exception escaped the call); `transform` is `const` in the source,
so it takes the state immutably and returns only the output. -/
structure Impl (From : Type u) (To : Type v) : Type (max (u + 1) (v + 1)) where
  σ : Type (max u v)
  step : σ → From → Option σ
  finalize : σ → Option σ
  transform : σ → From → Option To
  is_finalized : σ → Bool

/-- Key lookup in the association-list model of `std::unordered_map`:
the value stored for `x`, if any (`find`/`at` in the source). -/
def lookupVal {From : Type u} [DecidableEq From] (x : From) :
    List (From × Nat) → Option Nat
  | [] => none
  | (k, v) :: rest => if x = k then some v else lookupVal x rest

/-- State of `Binarizer<From>`: `_count`, `_data_to_val`, and the
inherited `_is_finalized` flag. -/
structure BinState (From : Type u) : Type u where
  count : Nat
  data_to_val : List (From × Nat)
  flag : Bool
deriving DecidableEq

/-- `Binarizer<From>` of `transformer.hpp`.

* `step`: `if (_data_to_val.find(sample) == _data_to_val.end())
  _data_to_val[sample] = _count++;` — note the source has no
  finalized-flag guard here.
* `finalize`: `Binarizer` does not override `finalize`, so the inherited
  `Transformer::finalize() {}` runs: it does nothing (in particular it
  does not set `_is_finalized`).
* `transform`: `int val = _data_to_val.at(sample);` (throws on a missing
  key, modelled by `none`) then a length-`_count` vector with `1.0` at
  position `val` and `0.0` elsewhere. -/
def Binarizer (From : Type u) [DecidableEq From] : Impl From (List ℚ) where
  σ := BinState From
  step s x :=
    some (match lookupVal x s.data_to_val with
      | some _ => s
      | none => ⟨s.count + 1, s.data_to_val ++ [(x, s.count)], s.flag⟩)
  finalize s := some s
  transform s x :=
    (lookupVal x s.data_to_val).map fun v =>
      (List.range s.count).map fun i => if v = i then (1 : ℚ) else 0
  is_finalized s := s.flag

/-- The `Binarizer()` constructor: empty map, zero count, and
`this->_is_finalized = false`. -/
def binInit {From : Type u} : BinState From := ⟨0, [], false⟩

/-- `LazyTransformer<From, To>` of `transformer.hpp`: wraps a pure
function, is constructed with `_is_finalized = true`, and inherits the
do-nothing `step` and `finalize` (the flag therefore never changes, so
the state is just `Unit` with a constantly-true flag). -/
def LazyTransformer {From : Type u} {To : Type v} (func : From → To) :
    Impl From To where
  σ := PUnit
  step s _ := some s
  finalize s := some s
  transform _ x := some (func x)
  is_finalized _ := true

/-- State of `Pipeline<From, Middle, To>`: the two children's states
(through the owning `shared_ptr`s), the `std::queue<From> _data` buffer
(front of the list = front of the queue), and the node's own
`_is_finalized`. -/
structure PipeState {From Middle : Type u} {To : Type v}
    (A : Impl From Middle) (B : Impl Middle To) : Type (max u v) where
  s1 : A.σ
  s2 : B.σ
  buf : List From
  fin : Bool

/-- `Pipeline::step`, line by line: early-return if the node itself is
finalized; if `first` is finalized, feed `first.transform(sample)` to a
still-fitting `second`; otherwise step `first` and, when `second` still
needs fitting, enqueue the raw sample. -/
def pipeStep {From Middle : Type u} {To : Type v}
    (A : Impl From Middle) (B : Impl Middle To)
    (p : PipeState A B) (x : From) : Option (PipeState A B) :=
  if p.fin then some p
  else if A.is_finalized p.s1 then
    if B.is_finalized p.s2 then some p
    else
      (A.transform p.s1 x).bind fun m =>
        (B.step p.s2 m).map fun s2' => { p with s2 := s2' }
  else
    (A.step p.s1 x).map fun s1' =>
      if B.is_finalized p.s2 then { p with s1 := s1' }
      else { p with s1 := s1', buf := p.buf ++ [x] }

/-- The `while (!_data.empty())` drain loop of `Pipeline::finalize`:
feed `first.transform` of each queued sample to `second`, front first. -/
def drain {From Middle : Type u} {To : Type v}
    (A : Impl From Middle) (B : Impl Middle To) (s1 : A.σ) :
    B.σ → List From → Option B.σ
  | s2, [] => some s2
  | s2, x :: xs =>
    (A.transform s1 x).bind fun m =>
      (B.step s2 m).bind fun s2' => drain A B s1 s2' xs

/-- `Pipeline::finalize`: finalize `first` if needed; if `second` is not
finalized, drain the buffer into it and finalize it (emptying the
queue); finally set the node's own flag.  The source never checks the
node's own flag here, and the buffer is only emptied on the
`second`-not-finalized path. -/
def pipeFinalize {From Middle : Type u} {To : Type v}
    (A : Impl From Middle) (B : Impl Middle To)
    (p : PipeState A B) : Option (PipeState A B) :=
  (if A.is_finalized p.s1 then some p.s1 else A.finalize p.s1).bind fun s1' =>
    if B.is_finalized p.s2 then some { p with s1 := s1', fin := true }
    else
      (drain A B s1' p.s2 p.buf).bind fun s2' =>
        (B.finalize s2').map fun s2'' =>
          { s1 := s1', s2 := s2'', buf := [], fin := true }

/-- `Pipeline<From, Middle, To>` as a transformer object;
`transform(sample) = second.transform(first.transform(sample))`. -/
def Pipeline {From Middle : Type u} {To : Type v}
    (A : Impl From Middle) (B : Impl Middle To) : Impl From To where
  σ := PipeState A B
  step := pipeStep A B
  finalize := pipeFinalize A B
  transform p x := (A.transform p.s1 x).bind (B.transform p.s2)
  is_finalized p := p.fin

/-- The `Pipeline` constructor: empty buffer, and
`_is_finalized = first->is_finalized() && second->is_finalized()`. -/
def pipeInit {From Middle : Type u} {To : Type v}
    (A : Impl From Middle) (B : Impl Middle To)
    (a0 : A.σ) (b0 : B.σ) : PipeState A B :=
  ⟨a0, b0, [], A.is_finalized a0 && B.is_finalized b0⟩

/-- State of `Combiner<From, To1, To2>`: the two siblings' states and
the node's own `_is_finalized`. -/
structure CombState {From : Type u} {To1 : Type v} {To2 : Type v}
    (A : Impl From To1) (B : Impl From To2) : Type (max u v) where
  s1 : A.σ
  s2 : B.σ
  fin : Bool

/-- `Combiner<From, To1, To2>` as a transformer object.  The `comb`
argument is the `combine` overload that C++ overload resolution selects
for the pair `(To1, To2)` (see `combinePair`, `combineTupleLeft`,
`combineTupleRight`, `combineVec` below).

* `step`: forward the sample to each sibling that is not finalized (the
  node's own flag is never consulted).
* `finalize`: finalize each sibling that is not finalized, then set the
  node's own flag.
* `transform`: `combine(first->transform(sample),
  second->transform(sample))`. -/
def Combiner {From : Type u} {To1 To2 To3 : Type v}
    (A : Impl From To1) (B : Impl From To2) (comb : To1 → To2 → To3) :
    Impl From To3 where
  σ := CombState A B
  step c x :=
    (if A.is_finalized c.s1 then some c.s1 else A.step c.s1 x).bind fun s1' =>
      (if B.is_finalized c.s2 then some c.s2 else B.step c.s2 x).map fun s2' =>
        { c with s1 := s1', s2 := s2' }
  finalize c :=
    (if A.is_finalized c.s1 then some c.s1 else A.finalize c.s1).bind fun s1' =>
      (if B.is_finalized c.s2 then some c.s2 else B.finalize c.s2).map fun s2' =>
        ⟨s1', s2', true⟩
  transform c x :=
    (A.transform c.s1 x).bind fun a =>
      (B.transform c.s2 x).map fun b => comb a b
  is_finalized c := c.fin

/-- The `Combiner` constructor: `this->_is_finalized = false;`
unconditionally (unlike `Pipeline`, it never looks at the children). -/
def combInit {From : Type u} {To1 To2 : Type v}
    (A : Impl From To1) (B : Impl From To2)
    (a0 : A.σ) (b0 : B.σ) : CombState A B :=
  ⟨a0, b0, false⟩

/-- The `combine(T1&&, T2&&)` overload for two non-tuple values:
`std::make_tuple(first_out, second_out)`. -/
def combinePair {To1 To2 : Type v} (a : To1) (b : To2) : To1 × To2 := (a, b)

/-- The `combine(std::tuple<Args...>&&, T2&&)` overload for a 2-tuple on
the left: `std::tuple_cat(first, make_tuple(second))`, flattening to a
3-tuple with the left components first. -/
def combineTupleLeft {To1 To2 To3 : Type v} (p : To1 × To2) (c : To3) :
    To1 × To2 × To3 := (p.1, p.2, c)

/-- The `combine(T1&&, std::tuple<Args...>&&)` overload for a 2-tuple on
the right: `std::tuple_cat(make_tuple(first), second)`, flattening to a
3-tuple with the single left component first. -/
def combineTupleRight {To1 To2 To3 : Type v} (a : To1) (p : To2 × To3) :
    To1 × To2 × To3 := (a, p.1, p.2)

/-- The `combine(std::vector<T>&&, std::vector<T>&&)` overload:
concatenation. -/
def combineVec {T : Type v} (xs ys : List T) : List T := xs ++ ys

/-- The driver loop's fitting phase: `step` once per sample, in dataset
order; aborts (`none`) if a call throws. -/
def stepAll {From : Type u} {To : Type v} (T : Impl From To) :
    T.σ → List From → Option T.σ
  | s, [] => some s
  | s, x :: xs => (T.step s x).bind fun s' => stepAll T s' xs

/-- Fit a transformer on a dataset: `step` on every sample, then one
`finalize`. -/
def fit {From : Type u} {To : Type v} (T : Impl From To)
    (s : T.σ) (ds : List From) : Option T.σ :=
  (stepAll T s ds).bind T.finalize

/-- Step a transformer on the image of each sample under a (fallible)
preprocessing function, in dataset order: this is how a downstream
transformer is fit on an upstream transformer's outputs. -/
def stepAllVia {From Middle : Type u} {To : Type v} (B : Impl Middle To)
    (g : From → Option Middle) : B.σ → List From → Option B.σ
  | s, [] => some s
  | s, x :: xs =>
    (g x).bind fun m => (B.step s m).bind fun s' => stepAllVia B g s' xs

/-- Contract law: `step` on a finalized transformer is a no-op
(`accumulate` after finalization leaves the state untouched). -/
def StepNoOpWhenFinal {From : Type u} {To : Type v} (T : Impl From To) : Prop :=
  ∀ s x, T.is_finalized s = true → T.step s x = some s

/-- Contract law: `finalize` on an already-finalized transformer is a
no-op. -/
def FinalizeNoOpWhenFinal {From : Type u} {To : Type v} (T : Impl From To) : Prop :=
  ∀ s, T.is_finalized s = true → T.finalize s = some s

/-- Contract law: `step` never changes the finalized flag (no
transformer in the repository finalizes itself from inside `step`). -/
def StepPreservesFlag {From : Type u} {To : Type v} (T : Impl From To) : Prop :=
  ∀ s x s', T.step s x = some s' → T.is_finalized s' = T.is_finalized s

/-- Law used for double-finalization: a state produced by `finalize` is
a fixed point of `finalize`. -/
def FinalizeIdem {From : Type u} {To : Type v} (T : Impl From To) : Prop :=
  ∀ s s', T.finalize s = some s' → T.finalize s' = some s'

/-- The distinct values of a dataset in order of first appearance,
appended after the accumulator `acc` of values already seen. -/
def firstOccsAux {From : Type u} [DecidableEq From] (acc : List From) :
    List From → List From
  | [] => acc
  | x :: xs => firstOccsAux (if x ∈ acc then acc else acc ++ [x]) xs

/-- The distinct values of a dataset in order of first appearance. -/
def firstOccs {From : Type u} [DecidableEq From] (ds : List From) : List From :=
  firstOccsAux [] ds

/-- The association list that numbers the elements of `l` consecutively
starting at `i`. -/
def pairsFrom {From : Type u} (l : List From) (i : Nat) : List (From × Nat) :=
  match l with
  | [] => []
  | v :: vs => (v, i) :: pairsFrom vs (i + 1)

/-- Index of the first occurrence of `x` in a list (0-based); meaningful
when `x` is a member. -/
def idxOf {From : Type u} [DecidableEq From] (x : From) : List From → Nat
  | [] => 0
  | y :: ys => if x = y then 0 else idxOf x ys + 1

/-- The one-hot vector of length `k` with `1.0` at position `i`. -/
def oneHot (k i : Nat) : List ℚ :=
  (List.range k).map fun j => if i = j then (1 : ℚ) else 0

/-- The demo record of `src/main.cpp` (fields `firstname`, `lastname`). -/
structure Data : Type where
  firstname : String
  lastname : String
deriving DecidableEq

/-- The `get_firstname` lazy extractor of `main.cpp` (and the test
suite's `firstname_lambda`). -/
def getFirstname : Impl Data String := LazyTransformer (fun d => d.firstname)

/-- The `get_lastname` lazy extractor of `main.cpp` (and the test
suite's `lastname_lambda`). -/
def getLastname : Impl Data String := LazyTransformer (fun d => d.lastname)

def aStr : String := "a"

def bStr : String := "b"

def michaelStr : String := "Michael"

def mikeStr : String := "Mike"

def jordanStr : String := "Jordan"

def jamesStr : String := "James"

def billStr : String := "Bill"

/-- The record `{"Michael", "Jordan"}` of `transformer_test.cpp`. -/
def michael : Data := ⟨michaelStr, jordanStr⟩

/-- `data1` of `main.cpp`. -/
def data1 : Data := ⟨mikeStr, jordanStr⟩

/-- `data2` of `main.cpp`. -/
def data2 : Data := ⟨mikeStr, jamesStr⟩

/-- `data3` of `main.cpp`. -/
def data3 : Data := ⟨billStr, jordanStr⟩

/-- `data4` of `main.cpp`. -/
def data4 : Data := ⟨billStr, jamesStr⟩

/-- Modelled from the spec: the glue that turns the combiner's
`(firstname, lastname)` pair into the key a `Binarizer<string>` is fit
on.  `main.cpp` as committed does not compile — it calls an undeclared
`make_transformers` (the header defines `make_transformer`), and
`operator+` cannot unify `Middle = tuple<string, string>` from the
combiner with the `string` input of `Binarizer<string>` — and the
`hasher.hpp` it includes is absent from the repository.  The spec says
the Binarizer is "fit on the 4 concatenated-string keys
\"MikeJordan\", \"MikeJames\", \"BillJordan\", \"BillJames\"", so the
missing pair-to-key step is modelled as string concatenation. -/
def concatKey : Impl (String × String) String :=
  LazyTransformer (fun p => p.1 ++ p.2)

/-- The intended composite of `main.cpp`:
`(get_firstname | get_lastname) + binarizer`, with the spec-modelled
concatenation glue in front of the Binarizer. -/
def mainPipe : Impl Data (List ℚ) :=
  Pipeline (Combiner getFirstname getLastname combinePair)
    (Pipeline concatKey (Binarizer String))

/-- The freshly-constructed state of `mainPipe` (all constructors run,
nothing fit yet). -/
def mainInit : mainPipe.σ :=
  pipeInit (Combiner getFirstname getLastname combinePair)
    (Pipeline concatKey (Binarizer String))
    (combInit getFirstname getLastname PUnit.unit PUnit.unit)
    (pipeInit concatKey (Binarizer String) PUnit.unit binInit)

/-- The 4-record dataset of `main.cpp`, in input order. -/
def mainDataset : List Data := [data1, data2, data3, data4]

/-! ### Association-list and first-occurrence lemmas -/

theorem lookupVal_pairsFrom {F : Type u} [DecidableEq F] (x : F) (l : List F)
    (i : Nat) :
    lookupVal x (pairsFrom l i) =
      if x ∈ l then some (i + idxOf x l) else none := by
  induction l generalizing i with
  | nil => simp [pairsFrom, lookupVal]
  | cons y ys ih =>
    by_cases hxy : x = y
    · subst hxy
      simp [pairsFrom, lookupVal, idxOf]
    · simp only [pairsFrom, lookupVal, hxy, if_false, ih, idxOf,
        List.mem_cons, false_or]
      by_cases hm : x ∈ ys
      · simp only [hm, if_true, Option.some.injEq]
        omega
      · simp [hm]

theorem pairsFrom_append {F : Type u} (l : List F) (x : F) (i : Nat) :
    pairsFrom (l ++ [x]) i = pairsFrom l i ++ [(x, i + l.length)] := by
  induction l generalizing i with
  | nil => simp [pairsFrom]
  | cons y ys ih =>
    have h : i + 1 + ys.length = i + (ys.length + 1) := by omega
    simp [pairsFrom, ih, h, List.append_eq]

theorem mem_firstOccsAux {F : Type u} [DecidableEq F] (x : F) (ds acc : List F) :
    x ∈ firstOccsAux acc ds ↔ x ∈ acc ∨ x ∈ ds := by
  induction ds generalizing acc with
  | nil => simp [firstOccsAux]
  | cons y ys ih =>
    by_cases hy : y ∈ acc
    · by_cases hxy : x = y
      · subst hxy
        simp [firstOccsAux, hy, ih]
      · simp [firstOccsAux, hy, ih, hxy]
    · simp [firstOccsAux, hy, ih, or_assoc]

theorem mem_firstOccs {F : Type u} [DecidableEq F] (x : F) (ds : List F) :
    x ∈ firstOccs ds ↔ x ∈ ds := by
  simp [firstOccs, mem_firstOccsAux]

theorem idxOf_lt_length {F : Type u} [DecidableEq F] {x : F} {l : List F}
    (h : x ∈ l) : idxOf x l < l.length := by
  induction l with
  | nil => cases h
  | cons y ys ih =>
    by_cases hxy : x = y
    · simp [idxOf, hxy]
    · have hm : x ∈ ys := by
        rcases List.mem_cons.mp h with h' | h'
        · exact absurd h' hxy
        · exact h'
      simp only [idxOf, hxy, if_false, List.length_cons]
      exact Nat.succ_lt_succ (ih hm)

theorem idxOf_inj {F : Type u} [DecidableEq F] {x y : F} {l : List F}
    (hx : x ∈ l) (hy : y ∈ l) (h : idxOf x l = idxOf y l) : x = y := by
  induction l with
  | nil => cases hx
  | cons z zs ih =>
    by_cases hxz : x = z <;> by_cases hyz : y = z
    · exact hxz.trans hyz.symm
    · exfalso
      simp [idxOf, hxz, hyz] at h
    · exfalso
      simp [idxOf, hxz, hyz] at h
    · have hx' : x ∈ zs := by
        rcases List.mem_cons.mp hx with h' | h'
        · exact absurd h' hxz
        · exact h'
      have hy' : y ∈ zs := by
        rcases List.mem_cons.mp hy with h' | h'
        · exact absurd h' hyz
        · exact h'
      simp only [idxOf, hxz, hyz, if_false, Nat.add_right_cancel_iff] at h
      exact ih hx' hy' h

/-! ### Binarizer fitting -/

theorem binarizer_step_mem {F : Type u} [DecidableEq F] {m : List (F × Nat)}
    {x : F} {v n : Nat} {fl : Bool} (h : lookupVal x m = some v) :
    (Binarizer F).step ⟨n, m, fl⟩ x = some ⟨n, m, fl⟩ := by
  simp [Binarizer, h]

theorem binarizer_step_not_mem {F : Type u} [DecidableEq F] {m : List (F × Nat)}
    {x : F} {n : Nat} {fl : Bool} (h : lookupVal x m = none) :
    (Binarizer F).step ⟨n, m, fl⟩ x = some ⟨n + 1, m ++ [(x, n)], fl⟩ := by
  simp [Binarizer, h]

theorem binarizer_stepAll {F : Type u} [DecidableEq F] (ds acc : List F)
    (fl : Bool) :
    stepAll (Binarizer F) ⟨acc.length, pairsFrom acc 0, fl⟩ ds =
      some ⟨(firstOccsAux acc ds).length,
        pairsFrom (firstOccsAux acc ds) 0, fl⟩ := by
  induction ds generalizing acc with
  | nil => simp [stepAll, firstOccsAux]
  | cons x xs ih =>
    by_cases hm : x ∈ acc
    · have hl : lookupVal x (pairsFrom acc 0) = some (0 + idxOf x acc) := by
        rw [lookupVal_pairsFrom]
        simp [hm]
      rw [stepAll, binarizer_step_mem hl, Option.some_bind, ih,
        firstOccsAux, if_pos hm]
    · have hl : lookupVal x (pairsFrom acc 0) = none := by
        rw [lookupVal_pairsFrom]
        simp [hm]
      have hstate : (⟨acc.length + 1, pairsFrom acc 0 ++ [(x, acc.length)], fl⟩ :
          BinState F) = ⟨(acc ++ [x]).length, pairsFrom (acc ++ [x]) 0, fl⟩ := by
        simp [pairsFrom_append]
      rw [stepAll, binarizer_step_not_mem hl, Option.some_bind, hstate, ih,
        firstOccsAux, if_neg hm]

theorem binarizer_fit {F : Type u} [DecidableEq F] (ds : List F) :
    fit (Binarizer F) binInit ds =
      some ⟨(firstOccs ds).length, pairsFrom (firstOccs ds) 0, false⟩ := by
  have h := binarizer_stepAll (F := F) ds [] false
  simp only [List.length_nil, pairsFrom] at h
  rw [fit, binInit, h]
  rfl

theorem binarizer_fit_transform {F : Type u} [DecidableEq F] {ds : List F}
    {v : F} (hv : v ∈ ds) :
    (fit (Binarizer F) binInit ds).bind
        (fun s => (Binarizer F).transform s v) =
      some (oneHot (firstOccs ds).length (idxOf v (firstOccs ds))) := by
  rw [binarizer_fit, Option.some_bind]
  have hv' : v ∈ firstOccs ds := (mem_firstOccs v ds).mpr hv
  simp only [Binarizer, lookupVal_pairsFrom, hv', if_true, Nat.zero_add, oneHot]
  rfl

theorem oneHot_ne {i j k : Nat} (hi : i < k) (hij : i ≠ j) :
    oneHot k i ≠ oneHot k j := by
  intro h
  have hji : ¬(j = i) := fun hji => hij hji.symm
  have h1 : (oneHot k i)[i]? = some (1 : ℚ) := by
    simp [oneHot, List.getElem?_map, List.getElem?_range, hi]
  have h2 : (oneHot k j)[i]? = some (0 : ℚ) := by
    simp [oneHot, List.getElem?_map, List.getElem?_range, hi, hji]
  rw [h] at h1
  have h3 := h1.symm.trans h2
  simp at h3

/-- Claim C2: the spec says that for every transformer variant,
`finalize()` leaves `is_finalized()` true — "in particular a Binarizer's
`finalize()` sets its finalized flag to true".  In the code `Binarizer`
does not override `finalize`, and the inherited `Transformer::finalize()
{}` is empty, so after fitting and finalizing a `Binarizer<string>` on
the one-element dataset the flag is still `false`.  (`Pipeline` and
`Combiner` do set their own flag, and `LazyTransformer` is constructed
with it already true; only the Binarizer contradicts the claim.) -/
theorem c2_binarizer_finalize_never_sets_flag :
    fit (Binarizer String) binInit [aStr] = some ⟨1, [(aStr, 0)], false⟩ ∧
    (Binarizer String).is_finalized ⟨1, [(aStr, 0)], false⟩ = false := by
  exact ⟨by rfl, by rfl⟩

/-- Claim C3: the spec says `step` after `finalize()` is a safe no-op for
every transformer.  For a `Binarizer`, `step` has no finalized-flag guard
at all (and `finalize` never sets the flag), so after fitting on `["a"]`
and finalizing, `step("b")` inserts a new level: the internal state
changes and `transform("a")` changes from `[1.0]` to `[1.0, 0.0]`. -/
theorem c3_binarizer_step_after_finalize_mutates :
    fit (Binarizer String) binInit [aStr] = some ⟨1, [(aStr, 0)], false⟩ ∧
    (Binarizer String).step ⟨1, [(aStr, 0)], false⟩ bStr
      = some ⟨2, [(aStr, 0), (bStr, 1)], false⟩ ∧
    (Binarizer String).transform ⟨1, [(aStr, 0)], false⟩ aStr = some [1] ∧
    (Binarizer String).transform ⟨2, [(aStr, 0), (bStr, 1)], false⟩ aStr
      = some [1, 0] := by
  exact ⟨by rfl, by rfl, by decide, by decide⟩

/-- Claim C4: a Binarizer fit (step on every sample, then finalize) on a
dataset with `k` distinct values maps each fit value `v` to the length-`k`
one-hot vector whose single `1.0` sits at the 0-based index of `v`'s
first appearance, and distinct fit values get distinct vectors.  Here
`k = (firstOccs ds).length` is the number of distinct values and
`idxOf v (firstOccs ds)` the first-appearance index. -/
theorem c4_binarizer_one_hot (F : Type) [inst : DecidableEq F] (ds : List F) :
    (∀ v ∈ ds,
      (fit (Binarizer F) binInit ds).bind
          (fun s => (Binarizer F).transform s v)
        = some (oneHot (firstOccs ds).length (idxOf v (firstOccs ds)))) ∧
    (∀ v ∈ ds,
      (oneHot (firstOccs ds).length (idxOf v (firstOccs ds))).length
        = (firstOccs ds).length) ∧
    (∀ v ∈ ds, idxOf v (firstOccs ds) < (firstOccs ds).length) ∧
    (∀ v ∈ ds, ∀ w ∈ ds, v ≠ w →
      (fit (Binarizer F) binInit ds).bind
          (fun s => (Binarizer F).transform s v)
        ≠ (fit (Binarizer F) binInit ds).bind
            (fun s => (Binarizer F).transform s w)) := by
  refine ⟨fun v hv => binarizer_fit_transform hv,
    fun v hv => by simp [oneHot],
    fun v hv => idxOf_lt_length ((mem_firstOccs v ds).mpr hv),
    fun v hv w hw hne => ?_⟩
  rw [binarizer_fit_transform hv, binarizer_fit_transform hw]
  intro h
  have h' := Option.some.inj h
  have hv' : v ∈ firstOccs ds := (mem_firstOccs v ds).mpr hv
  have hw' : w ∈ firstOccs ds := (mem_firstOccs w ds).mpr hw
  have hidx : idxOf v (firstOccs ds) ≠ idxOf w (firstOccs ds) :=
    fun he => hne (idxOf_inj hv' hw' he)
  exact oneHot_ne (idxOf_lt_length hv') hidx h'

/-- Witness for C4 at the concrete dataset `["a", "b", "a"]` and value
`"b"`: its one-hot vector is `[0.0, 1.0]`. -/
theorem c4_witness :
    (fit (Binarizer String) binInit [aStr, bStr, aStr]).bind
      (fun s => (Binarizer String).transform s bStr) = some [0, 1] := by
  have h := (c4_binarizer_one_hot String [aStr, bStr, aStr]).1 bStr (by decide)
  rw [h]
  decide

/-- Claim C6: transforming a finalized (fitted) Binarizer on a value that
never appeared during accumulation fails with a lookup error
(`unordered_map::at` throws, modelled by `none`); no default or
"unknown" bucket is produced.  The state cannot change: in the source
`transform` is a `const` member, which the embedding reflects by making
`transform` a pure function of the state. -/
theorem c6_binarizer_unseen_errors (F : Type) [inst : DecidableEq F]
    (ds : List F) (v : F) (hv : v ∉ ds) :
    (fit (Binarizer F) binInit ds).bind
      (fun s => (Binarizer F).transform s v) = none := by
  rw [binarizer_fit, Option.some_bind]
  have hv' : v ∉ firstOccs ds := fun h => hv ((mem_firstOccs v ds).mp h)
  simp [Binarizer, lookupVal_pairsFrom, hv']

/-- Witness for C6: the Binarizer fit on `["a"]`, asked about `"b"`. -/
theorem c6_witness :
    bStr ∉ [aStr] ∧
    (fit (Binarizer String) binInit [aStr]).bind
      (fun s => (Binarizer String).transform s bStr) = none :=
  ⟨by decide, c6_binarizer_unseen_errors String [aStr] bStr (by decide)⟩

/-- Claim C5: for transformers `A`, `B`, `C` on the same input type,
`(A|B).transform(x)` is the pair `(A.transform(x), B.transform(x))` in
that order, and `(A|B|C).transform(x)` is the flattened 3-tuple
`(A.transform(x), B.transform(x), C.transform(x))` whether `|` is nested
left-associatively — `combine(tuple<T1,T2>, T3)` — or
right-associatively — `combine(T1, tuple<T2,T3>)`.  The node flags are
arbitrary: `Combiner::transform` never consults them. -/
theorem c5_combiner_ordering (F T1 T2 T3 : Type)
    (A : Impl F T1) (B : Impl F T2) (C : Impl F T3)
    (s1 : A.σ) (s2 : B.σ) (s3 : C.σ) (f1 f2 f3 : Bool) (x : F)
    (a : T1) (b : T2) (c : T3)
    (ha : A.transform s1 x = some a) (hb : B.transform s2 x = some b)
    (hc : C.transform s3 x = some c) :
    (Combiner A B combinePair).transform ⟨s1, s2, f1⟩ x = some (a, b) ∧
    (Combiner (Combiner A B combinePair) C combineTupleLeft).transform
        ⟨⟨s1, s2, f1⟩, s3, f2⟩ x = some (a, b, c) ∧
    (Combiner A (Combiner B C combinePair) combineTupleRight).transform
        ⟨s1, ⟨s2, s3, f2⟩, f3⟩ x = some (a, b, c) := by
  refine ⟨?_, ?_, ?_⟩ <;>
    simp [Combiner, combinePair, combineTupleLeft, combineTupleRight,
      ha, hb, hc]

/-- Witness for C5: the `firstname | lastname | firstname` combiners of
`transformer_test.cpp` on the record `{"Michael", "Jordan"}`. -/
theorem c5_witness :
    (Combiner getFirstname getLastname combinePair).transform
        ⟨PUnit.unit, PUnit.unit, false⟩ michael
      = some (michaelStr, jordanStr) ∧
    (Combiner (Combiner getFirstname getLastname combinePair) getFirstname
        combineTupleLeft).transform
        ⟨⟨PUnit.unit, PUnit.unit, false⟩, PUnit.unit, false⟩ michael
      = some (michaelStr, jordanStr, michaelStr) ∧
    (Combiner getFirstname (Combiner getLastname getFirstname combinePair)
        combineTupleRight).transform
        ⟨PUnit.unit, ⟨PUnit.unit, PUnit.unit, false⟩, false⟩ michael
      = some (michaelStr, jordanStr, michaelStr) :=
  c5_combiner_ordering Data String String String getFirstname getLastname
    getFirstname PUnit.unit PUnit.unit PUnit.unit false false false michael
    michaelStr jordanStr michaelStr rfl rfl rfl

/-- Claim C10: the `Combiner` constructor sets `_is_finalized = false`
unconditionally, even when both siblings are already finalized, whereas
the `Pipeline` constructor computes
`first->is_finalized() && second->is_finalized()`; and a combiner of two
finalized siblings transforms correctly before any `finalize` call. -/
theorem c10_constructor_flags :
    (∀ (F T1 T2 T3 : Type) (A : Impl F T1) (B : Impl F T2)
        (comb : T1 → T2 → T3) (a0 : A.σ) (b0 : B.σ),
      (Combiner A B comb).is_finalized (combInit A B a0 b0) = false) ∧
    (∀ (F M T : Type) (P : Impl F M) (Q : Impl M T) (p0 : P.σ) (q0 : Q.σ),
      (Pipeline P Q).is_finalized (pipeInit P Q p0 q0)
        = (P.is_finalized p0 && Q.is_finalized q0)) ∧
    (∀ (F T1 T2 T3 : Type) (A : Impl F T1) (B : Impl F T2)
        (comb : T1 → T2 → T3) (a0 : A.σ) (b0 : B.σ) (x : F) (a : T1) (b : T2),
      A.is_finalized a0 = true → B.is_finalized b0 = true →
      A.transform a0 x = some a → B.transform b0 x = some b →
      (Combiner A B comb).transform (combInit A B a0 b0) x
        = some (comb a b)) := by
  refine ⟨fun _ _ _ _ _ _ _ _ _ => rfl, fun _ _ _ _ _ _ _ => rfl,
    fun F T1 T2 T3 A B comb a0 b0 x a b hfa hfb ha hb => ?_⟩
  simp [Combiner, combInit, ha, hb]

/-- Witness for C10: a combiner of the two (always finalized) lazy
extractors is itself unfinalized at construction, yet transforms
`{"Michael", "Jordan"}` to the pair at once. -/
theorem c10_witness :
    (Combiner getFirstname getLastname combinePair).is_finalized
        (combInit getFirstname getLastname PUnit.unit PUnit.unit) = false ∧
    (Combiner getFirstname getLastname combinePair).transform
        (combInit getFirstname getLastname PUnit.unit PUnit.unit) michael
      = some (michaelStr, jordanStr) :=
  ⟨c10_constructor_flags.1 Data String String (String × String) getFirstname
      getLastname combinePair PUnit.unit PUnit.unit,
    c10_constructor_flags.2.2 Data String String (String × String)
      getFirstname getLastname combinePair PUnit.unit PUnit.unit michael
      michaelStr jordanStr rfl rfl rfl rfl⟩

/-- Claim C9: the end-to-end scenario of `main.cpp`.  The committed
`main.cpp` does not compile (see `concatKey`), so this evaluates the
intended composite — the combiner of the two extractors, the
spec-modelled concatenation glue, and a `Binarizer<string>` fit on the
keys "MikeJordan", "MikeJames", "BillJordan", "BillJames" — on the
4-record dataset: after one `step` per record and one `finalize`, the
transforms in input order are the four unit one-hot rows that both the
spec and the comment block in `main.cpp` promise. -/
theorem c9_end_to_end :
    (fit mainPipe mainInit mainDataset).bind
        (fun p => mainPipe.transform p data1) = some [1, 0, 0, 0] ∧
    (fit mainPipe mainInit mainDataset).bind
        (fun p => mainPipe.transform p data2) = some [0, 1, 0, 0] ∧
    (fit mainPipe mainInit mainDataset).bind
        (fun p => mainPipe.transform p data3) = some [0, 0, 1, 0] ∧
    (fit mainPipe mainInit mainDataset).bind
        (fun p => mainPipe.transform p data4) = some [0, 0, 0, 1] := by
  refine ⟨?_, ?_, ?_, ?_⟩ <;> decide

/-- The `if (!child->is_finalized()) child->finalize();` guard found in
`Pipeline::finalize` and `Combiner::finalize`: if one run of the guard
produced `s'`, running the guard again on `s'` leaves it unchanged,
whenever the child's `finalize` fixes its own results. -/
theorem finalize_guard_idem {From : Type u} {To : Type v} {T : Impl From To}
    (hT : FinalizeIdem T) {s s' : T.σ}
    (h : (if T.is_finalized s then some s else T.finalize s) = some s') :
    (if T.is_finalized s' then some s' else T.finalize s') = some s' := by
  by_cases hf : T.is_finalized s
  · rw [if_pos hf] at h
    have hss : s = s' := Option.some.inj h
    subst hss
    rw [if_pos hf]
  · rw [if_neg hf] at h
    have h2 := hT s s' h
    by_cases hf' : T.is_finalized s'
    · rw [if_pos hf']
    · rw [if_neg hf', h2]

theorem pipeFinalize_idem {From Middle : Type u} {To : Type v}
    {A : Impl From Middle} {B : Impl Middle To}
    (hA : FinalizeIdem A) (hB : FinalizeIdem B) :
    FinalizeIdem (Pipeline A B) := by
  intro p p' h
  obtain ⟨s1', hs1, hrest⟩ := Option.bind_eq_some.mp h
  have hs1' := finalize_guard_idem hA hs1
  by_cases hf2 : B.is_finalized p.s2
  · rw [if_pos hf2] at hrest
    have hp' : ({ p with s1 := s1', fin := true } : PipeState A B) = p' :=
      Option.some.inj hrest
    subst hp'
    show pipeFinalize A B _ = _
    rw [pipeFinalize]
    simp only
    rw [hs1', Option.some_bind, if_pos hf2]
  · rw [if_neg hf2] at hrest
    obtain ⟨s2', hd, hrest2⟩ := Option.bind_eq_some.mp hrest
    obtain ⟨s2'', hfin2, hp'⟩ := Option.map_eq_some'.mp hrest2
    subst hp'
    show pipeFinalize A B _ = _
    rw [pipeFinalize]
    simp only
    rw [hs1', Option.some_bind]
    by_cases hf2' : B.is_finalized s2''
    · rw [if_pos hf2']
    · rw [if_neg hf2']
      show (drain A B s1' s2'' []).bind _ = _
      rw [drain, Option.some_bind, hB s2' s2'' hfin2]
      rfl

theorem combFinalize_idem {From : Type u} {To1 To2 To3 : Type v}
    {A : Impl From To1} {B : Impl From To2} {comb : To1 → To2 → To3}
    (hA : FinalizeIdem A) (hB : FinalizeIdem B) :
    FinalizeIdem (Combiner A B comb) := by
  intro c c' h
  obtain ⟨s1', hs1, hrest⟩ := Option.bind_eq_some.mp h
  obtain ⟨s2', hs2, hc'⟩ := Option.map_eq_some'.mp hrest
  subst hc'
  have hs1' := finalize_guard_idem hA hs1
  have hs2' := finalize_guard_idem hB hs2
  show (if A.is_finalized s1' then some s1' else A.finalize s1').bind _ = _
  rw [hs1', Option.some_bind, hs2']
  rfl

/-- Claim C7: calling `finalize()` a second time changes nothing.  Both
leaf transformers' `finalize` fixes its results (`FinalizeIdem`), the
`Pipeline` and `Combiner` constructions preserve that property (so every
composite built from the repository's nodes has it), and for any
transformer with the property a second `finalize` leaves every
subsequent `transform` output unchanged. -/
theorem c7_double_finalize_harmless :
    (∀ (F : Type) [DecidableEq F], FinalizeIdem (Binarizer F)) ∧
    (∀ (F T : Type) (f : F → T), FinalizeIdem (LazyTransformer f)) ∧
    (∀ (F M T : Type) (A : Impl F M) (B : Impl M T),
      FinalizeIdem A → FinalizeIdem B → FinalizeIdem (Pipeline A B)) ∧
    (∀ (F T1 T2 T3 : Type) (A : Impl F T1) (B : Impl F T2)
        (comb : T1 → T2 → T3),
      FinalizeIdem A → FinalizeIdem B → FinalizeIdem (Combiner A B comb)) ∧
    (∀ (F T : Type) (T' : Impl F T), FinalizeIdem T' →
      ∀ (s s' : T'.σ) (x : F), T'.finalize s = some s' →
        (T'.finalize s').bind (fun s'' => T'.transform s'' x)
          = T'.transform s' x) := by
  refine ⟨?_, ?_, ?_, ?_, ?_⟩
  · intro F _ s s' h
    have hss : s = s' := Option.some.inj h
    subst hss
    rfl
  · intro F T f s s' h
    have hss : s = s' := Option.some.inj h
    subst hss
    rfl
  · intro F M T A B hA hB
    exact pipeFinalize_idem hA hB
  · intro F T1 T2 T3 A B comb hA hB
    exact combFinalize_idem hA hB
  · intro F T T' hT s s' x h
    rw [hT s s' h, Option.some_bind]

/-- Witness for C7: a pipeline of two lazy transformers; its first
`finalize` yields the flagged state, and by the theorem a second
`finalize` returns that state unchanged. -/
theorem c7_witness :
    (Pipeline (LazyTransformer (fun n : Nat => n + 1))
        (LazyTransformer (fun n : Nat => n * 2))).finalize
        ⟨PUnit.unit, PUnit.unit, [5], true⟩
      = some ⟨PUnit.unit, PUnit.unit, [5], true⟩ :=
  c7_double_finalize_harmless.2.2.1 Nat Nat Nat
    (LazyTransformer (fun n : Nat => n + 1))
    (LazyTransformer (fun n : Nat => n * 2))
    (c7_double_finalize_harmless.2.1 Nat Nat (fun n : Nat => n + 1))
    (c7_double_finalize_harmless.2.1 Nat Nat (fun n : Nat => n * 2))
    ⟨PUnit.unit, PUnit.unit, [5], false⟩ ⟨PUnit.unit, PUnit.unit, [5], true⟩
    rfl

/-! ### Driver-loop and Pipeline stepping lemmas -/

theorem stepAll_nil {From : Type u} {To : Type v} (T : Impl From To)
    (s : T.σ) : stepAll T s [] = some s := rfl

theorem stepAll_cons {From : Type u} {To : Type v} (T : Impl From To)
    (s : T.σ) (x : From) (xs : List From) :
    stepAll T s (x :: xs) = (T.step s x).bind fun s' => stepAll T s' xs := rfl

theorem stepAllVia_nil {From Middle : Type u} {To : Type v}
    (B : Impl Middle To) (g : From → Option Middle) (s : B.σ) :
    stepAllVia B g s [] = some s := rfl

theorem stepAllVia_cons {From Middle : Type u} {To : Type v}
    (B : Impl Middle To) (g : From → Option Middle) (s : B.σ) (x : From)
    (xs : List From) :
    stepAllVia B g s (x :: xs)
      = (g x).bind fun m => (B.step s m).bind fun s' => stepAllVia B g s' xs :=
  rfl

theorem pipe_step_eq {From Middle : Type u} {To : Type v}
    (A : Impl From Middle) (B : Impl Middle To) (p : PipeState A B)
    (x : From) : (Pipeline A B).step p x = pipeStep A B p x := rfl

theorem pipe_finalize_eq {From Middle : Type u} {To : Type v}
    (A : Impl From Middle) (B : Impl Middle To) (p : PipeState A B) :
    (Pipeline A B).finalize p = pipeFinalize A B p := rfl

theorem pipe_transform_eq {From Middle : Type u} {To : Type v}
    (A : Impl From Middle) (B : Impl Middle To) (p : PipeState A B)
    (x : From) :
    (Pipeline A B).transform p x
      = (A.transform p.s1 x).bind fun m => B.transform p.s2 m := rfl

theorem stepAll_of_final {From : Type u} {To : Type v} {T : Impl From To}
    (h1 : StepNoOpWhenFinal T) {s : T.σ} (hf : T.is_finalized s = true)
    (ds : List From) : stepAll T s ds = some s := by
  induction ds with
  | nil => rfl
  | cons x xs ih => rw [stepAll_cons, h1 s x hf, Option.some_bind, ih]

theorem stepAllVia_of_final {From Middle : Type u} {To : Type v}
    {B : Impl Middle To} (h1 : StepNoOpWhenFinal B) {b0 : B.σ}
    (hf : B.is_finalized b0 = true) (g : From → Option Middle) :
    ∀ (ds : List From) (b' : B.σ), stepAllVia B g b0 ds = some b' → b' = b0 := by
  intro ds
  induction ds with
  | nil => intro b' h; exact (Option.some.inj h).symm
  | cons x xs ih =>
    intro b' h
    rw [stepAllVia_cons] at h
    obtain ⟨m, hg, h2⟩ := Option.bind_eq_some.mp h
    rw [h1 b0 m hf, Option.some_bind] at h2
    exact ih b' h2

theorem stepAll_preserves_flag {From : Type u} {To : Type v} {T : Impl From To}
    (h3 : StepPreservesFlag T) :
    ∀ (ds : List From) (s s' : T.σ), stepAll T s ds = some s' →
      T.is_finalized s' = T.is_finalized s := by
  intro ds
  induction ds with
  | nil =>
    intro s s' h
    cases Option.some.inj h
    rfl
  | cons x xs ih =>
    intro s s' h
    rw [stepAll_cons] at h
    obtain ⟨s1, hstep, h2⟩ := Option.bind_eq_some.mp h
    rw [ih s1 s' h2, h3 s x s1 hstep]

theorem drain_nil {From Middle : Type u} {To : Type v}
    (A : Impl From Middle) (B : Impl Middle To) (s1 : A.σ) (s2 : B.σ) :
    drain A B s1 s2 [] = some s2 := rfl

theorem drain_eq_stepAllVia {From Middle : Type u} {To : Type v}
    (A : Impl From Middle) (B : Impl Middle To) (s1 : A.σ) :
    ∀ (l : List From) (s2 : B.σ),
      drain A B s1 s2 l = stepAllVia B (fun y => A.transform s1 y) s2 l := by
  intro l
  induction l with
  | nil => intro s2; rfl
  | cons x xs ih => intro s2; simp only [drain, stepAllVia, ih]

theorem stepAll_pipe_of_fin {From Middle : Type u} {To : Type v}
    (A : Impl From Middle) (B : Impl Middle To) :
    ∀ (ds : List From) (p : PipeState A B), p.fin = true →
      stepAll (Pipeline A B) p ds = some p := by
  intro ds
  induction ds with
  | nil => intro p hp; rfl
  | cons x xs ih =>
    intro p hp
    rw [stepAll_cons, pipe_step_eq, pipeStep, if_pos hp, Option.some_bind]
    exact ih p hp

theorem stepAll_pipe_unfit_unfit {From Middle : Type u} {To : Type v}
    {A : Impl From Middle} {B : Impl Middle To} (hA3 : StepPreservesFlag A)
    {b0 : B.σ} (hfb : B.is_finalized b0 = false) :
    ∀ (ds : List From) (a0 : A.σ) (buf : List From),
      A.is_finalized a0 = false →
      stepAll (Pipeline A B) ⟨a0, b0, buf, false⟩ ds
        = (stepAll A a0 ds).map fun a1 => ⟨a1, b0, buf ++ ds, false⟩ := by
  intro ds
  induction ds with
  | nil => intro a0 buf hfa; simp [stepAll_nil]
  | cons x xs ih =>
    intro a0 buf hfa
    rw [stepAll_cons, stepAll_cons, pipe_step_eq]
    cases h : A.step a0 x with
    | none => simp [pipeStep, hfa, hfb, h]
    | some a1' =>
      have hfa' : A.is_finalized a1' = false := by
        rw [hA3 a0 x a1' h]; exact hfa
      simp only [pipeStep, hfa, hfb, h, Bool.false_eq_true, if_false,
        Option.map_some', Option.some_bind]
      rw [ih a1' (buf ++ [x]) hfa']
      simp [List.append_assoc]

theorem stepAll_pipe_unfit_fit {From Middle : Type u} {To : Type v}
    {A : Impl From Middle} {B : Impl Middle To} (hA3 : StepPreservesFlag A)
    {b0 : B.σ} (hfb : B.is_finalized b0 = true) :
    ∀ (ds : List From) (a0 : A.σ) (buf : List From),
      A.is_finalized a0 = false →
      stepAll (Pipeline A B) ⟨a0, b0, buf, false⟩ ds
        = (stepAll A a0 ds).map fun a1 => ⟨a1, b0, buf, false⟩ := by
  intro ds
  induction ds with
  | nil => intro a0 buf hfa; simp [stepAll_nil]
  | cons x xs ih =>
    intro a0 buf hfa
    rw [stepAll_cons, stepAll_cons, pipe_step_eq]
    cases h : A.step a0 x with
    | none => simp [pipeStep, hfa, hfb, h]
    | some a1' =>
      have hfa' : A.is_finalized a1' = false := by
        rw [hA3 a0 x a1' h]; exact hfa
      simp only [pipeStep, hfa, hfb, h, Bool.false_eq_true, if_false,
        if_true, Option.map_some', Option.some_bind]
      exact ih a1' buf hfa'

theorem stepAll_pipe_fit {From Middle : Type u} {To : Type v}
    {A : Impl From Middle} {B : Impl Middle To} (h1B : StepNoOpWhenFinal B)
    {a0 : A.σ} (hfa : A.is_finalized a0 = true) :
    ∀ (ds : List From) (b0 : B.σ) (buf : List From) (b1 : B.σ),
      stepAllVia B (fun y => A.transform a0 y) b0 ds = some b1 →
      stepAll (Pipeline A B) ⟨a0, b0, buf, false⟩ ds
        = some ⟨a0, b1, buf, false⟩ := by
  intro ds
  induction ds with
  | nil =>
    intro b0 buf b1 h
    cases Option.some.inj h
    rfl
  | cons x xs ih =>
    intro b0 buf b1 h
    rw [stepAllVia_cons] at h
    obtain ⟨m, hm, h2⟩ := Option.bind_eq_some.mp h
    obtain ⟨s', hs', h3⟩ := Option.bind_eq_some.mp h2
    rw [stepAll_cons, pipe_step_eq]
    by_cases hfb : B.is_finalized b0
    · have hsb : s' = b0 := by
        have := (h1B b0 m hfb).symm.trans hs'
        exact (Option.some.inj this).symm
      subst hsb
      simp only [pipeStep, hfa, hfb, Bool.false_eq_true, if_false, if_true,
        Option.some_bind]
      exact ih _ buf b1 h3
    · have hfb' : B.is_finalized b0 = false := by
        simpa using hfb
      simp only [pipeStep, hfa, hfb', Bool.false_eq_true, if_false, if_true,
        hm, Option.some_bind, hs', Option.map_some']
      exact ih s' buf b1 h3

/-- Claim C1: feeding a dataset through `pipe(A, B)` one `step` per
sample and then finalizing gives, for every input `x`, the same
`transform` result as `B'.transform(A'.transform(x))`, where `A'` is `A`
fit on the raw samples and `B'` is `B` fit on `A'`'s outputs after `A'`
is finalized (both in dataset order).  The hypotheses are the framework
contract of §4.1 of the spec — `step` is a no-op on a finalized
transformer, `finalize` is a no-op on an already-finalized one, and
`step` never flips the finalized flag — plus the success of the two
independent fits (if fitting `A'` or `B'` throws, there are no `A'`,
`B'` to compare against).  Both sides are `Option` values, so a lookup
failure at `x` itself is also required to coincide. -/
theorem c1_pipeline_equals_independent_fit
    (F M T : Type) (A : Impl F M) (B : Impl M T) (a0 : A.σ) (b0 : B.σ)
    (hA1 : StepNoOpWhenFinal A) (hA2 : FinalizeNoOpWhenFinal A)
    (hA3 : StepPreservesFlag A)
    (hB1 : StepNoOpWhenFinal B) (hB2 : FinalizeNoOpWhenFinal B)
    (ds : List F) (x : F) (a1 : A.σ) (b1 : B.σ)
    (hfitA : fit A a0 ds = some a1)
    (hfitB : (stepAllVia B (fun y => A.transform a1 y) b0 ds).bind B.finalize
      = some b1) :
    (fit (Pipeline A B) (pipeInit A B a0 b0) ds).bind
        (fun p => (Pipeline A B).transform p x)
      = (A.transform a1 x).bind fun m => B.transform b1 m := by
  obtain ⟨bpre, hpre, hfinB⟩ := Option.bind_eq_some.mp hfitB
  rw [fit] at hfitA
  obtain ⟨an, hsan, hfinA⟩ := Option.bind_eq_some.mp hfitA
  by_cases hfa : A.is_finalized a0
  · have hana : an = a0 := by
      have h2 := (stepAll_of_final hA1 hfa ds).symm.trans hsan
      exact (Option.some.inj h2).symm
    subst hana
    have ha1 : a1 = an := by
      have h2 := (hA2 an hfa).symm.trans hfinA
      exact (Option.some.inj h2).symm
    subst ha1
    by_cases hfb : B.is_finalized b0
    · have hbpre : bpre = b0 := stepAllVia_of_final hB1 hfb _ ds bpre hpre
      subst hbpre
      have hb1 : b1 = bpre := by
        have h2 := (hB2 bpre hfb).symm.trans hfinB
        exact (Option.some.inj h2).symm
      subst hb1
      have hinit : pipeInit A B a1 b1 = ⟨a1, b1, [], true⟩ := by
        simp [pipeInit, hfa, hfb]
      rw [fit, hinit, stepAll_pipe_of_fin A B ds _ rfl, Option.some_bind,
        pipe_finalize_eq, pipeFinalize]
      simp only [hfa, hfb, if_true, Option.some_bind]
      rw [pipe_transform_eq]
    · have hfb' : B.is_finalized b0 = false := by simpa using hfb
      have hinit : pipeInit A B a1 b0 = ⟨a1, b0, [], false⟩ := by
        simp [pipeInit, hfb']
      rw [fit, hinit, stepAll_pipe_fit hB1 hfa ds b0 [] bpre hpre,
        Option.some_bind, pipe_finalize_eq, pipeFinalize]
      simp only [hfa, if_true, Option.some_bind]
      by_cases hfbp : B.is_finalized bpre
      · have hb1 : b1 = bpre := by
          have h2 := (hB2 bpre hfbp).symm.trans hfinB
          exact (Option.some.inj h2).symm
        subst hb1
        simp only [hfbp, if_true, Option.some_bind]
        rw [pipe_transform_eq]
      · have hfbp' : B.is_finalized bpre = false := by simpa using hfbp
        simp only [hfbp', Bool.false_eq_true, if_false]
        rw [drain_nil, Option.some_bind, hfinB, Option.map_some',
          Option.some_bind, pipe_transform_eq]
  · have hfa' : A.is_finalized a0 = false := by simpa using hfa
    have hfan : A.is_finalized an = false := by
      rw [stepAll_preserves_flag hA3 ds a0 an hsan]; exact hfa'
    have hinit : pipeInit A B a0 b0 = ⟨a0, b0, [], false⟩ := by
      simp [pipeInit, hfa']
    by_cases hfb : B.is_finalized b0
    · rw [fit, hinit, stepAll_pipe_unfit_fit hA3 hfb ds a0 [] hfa', hsan,
        Option.map_some', Option.some_bind, pipe_finalize_eq, pipeFinalize]
      simp only [hfan, Bool.false_eq_true, if_false, hfinA, Option.some_bind,
        hfb, if_true]
      have hbpre : bpre = b0 := stepAllVia_of_final hB1 hfb _ ds bpre hpre
      subst hbpre
      have hb1 : b1 = bpre := by
        have h2 := (hB2 bpre hfb).symm.trans hfinB
        exact (Option.some.inj h2).symm
      subst hb1
      rw [pipe_transform_eq]
    · have hfb' : B.is_finalized b0 = false := by simpa using hfb
      rw [fit, hinit, stepAll_pipe_unfit_unfit hA3 hfb' ds a0 [] hfa', hsan,
        Option.map_some', Option.some_bind, pipe_finalize_eq, pipeFinalize]
      simp only [hfan, Bool.false_eq_true, if_false, hfinA, Option.some_bind,
        hfb', List.nil_append]
      rw [drain_eq_stepAllVia A B a1 ds b0, hpre, Option.some_bind, hfinB,
        Option.map_some', Option.some_bind, pipe_transform_eq]

/-- Witness for C1: a pipeline of two lazy transformers fit on `[2]`,
then transforming `4`: both sides evaluate to `(4 + 3) * 5 = 35`. -/
theorem c1_witness :
    (fit (Pipeline (LazyTransformer (fun n : Nat => n + 3))
          (LazyTransformer (fun n : Nat => n * 5)))
        (pipeInit (LazyTransformer (fun n : Nat => n + 3))
          (LazyTransformer (fun n : Nat => n * 5)) PUnit.unit PUnit.unit)
        [2]).bind
      (fun p => (Pipeline (LazyTransformer (fun n : Nat => n + 3))
          (LazyTransformer (fun n : Nat => n * 5))).transform p 4)
      = some 35 := by
  have h := c1_pipeline_equals_independent_fit Nat Nat Nat
    (LazyTransformer (fun n : Nat => n + 3))
    (LazyTransformer (fun n : Nat => n * 5)) PUnit.unit PUnit.unit
    (fun s x _ => rfl) (fun s _ => rfl) (fun s x s' _ => rfl)
    (fun s x _ => rfl) (fun s _ => rfl)
    [2] 4 PUnit.unit PUnit.unit rfl rfl
  rw [h]
  rfl

theorem binarizer_step_flag {F : Type u} [DecidableEq F] :
    StepPreservesFlag (Binarizer F) := by
  intro s x s' h
  cases hm : lookupVal x s.data_to_val with
  | none =>
    have h3 : (Binarizer F).step s x
        = some ⟨s.count + 1, s.data_to_val ++ [(x, s.count)], s.flag⟩ :=
      binarizer_step_not_mem hm
    have h4 := Option.some.inj (h3.symm.trans h)
    rw [← h4]
    rfl
  | some v =>
    have h3 : (Binarizer F).step s x = some ⟨s.count, s.data_to_val, s.flag⟩ :=
      binarizer_step_mem hm
    have h4 := Option.some.inj (h3.symm.trans h)
    rw [← h4]
    rfl

theorem stepAll_pipe_fit_inv {From Middle : Type u} {To : Type v}
    {A : Impl From Middle} {B : Impl Middle To} {a0 : A.σ}
    (hfa : A.is_finalized a0 = true) :
    ∀ (ds : List From) (b0 : B.σ) (buf : List From) (pst : PipeState A B),
      stepAll (Pipeline A B) ⟨a0, b0, buf, false⟩ ds = some pst →
      pst.s1 = a0 ∧ pst.buf = buf := by
  intro ds
  induction ds with
  | nil =>
    intro b0 buf pst h
    cases Option.some.inj h
    exact ⟨rfl, rfl⟩
  | cons x xs ih =>
    intro b0 buf pst h
    rw [stepAll_cons, pipe_step_eq] at h
    by_cases hfb : B.is_finalized b0
    · simp only [pipeStep, hfa, hfb, Bool.false_eq_true, if_false, if_true,
        Option.some_bind] at h
      exact ih b0 buf pst h
    · have hfb' : B.is_finalized b0 = false := by simpa using hfb
      simp only [pipeStep, hfa, hfb', Bool.false_eq_true, if_false, if_true,
        Option.some_bind] at h
      obtain ⟨q, hq, h3⟩ := Option.bind_eq_some.mp h
      obtain ⟨m, hm, hq2⟩ := Option.bind_eq_some.mp hq
      obtain ⟨s2', hs2, hq3⟩ := Option.map_eq_some'.mp hq2
      subst hq3
      exact ih s2' buf pst h3

theorem stepAll_pipe_unfit_inv {From Middle : Type u} {To : Type v}
    {A : Impl From Middle} {B : Impl Middle To} (hA3 : StepPreservesFlag A)
    {b0 : B.σ} :
    ∀ (ds : List From) (a0 : A.σ) (buf : List From),
      A.is_finalized a0 = false →
      ∀ (pst : PipeState A B),
        stepAll (Pipeline A B) ⟨a0, b0, buf, false⟩ ds = some pst →
        pst.s2 = b0 ∧ pst.buf.length ≤ buf.length + ds.length ∧
          (B.is_finalized b0 = true → pst.buf = buf) := by
  intro ds
  induction ds with
  | nil =>
    intro a0 buf hfa pst h
    cases Option.some.inj h
    exact ⟨rfl, by simp, fun _ => rfl⟩
  | cons x xs ih =>
    intro a0 buf hfa pst h
    rw [stepAll_cons, pipe_step_eq] at h
    simp only [pipeStep, hfa, Bool.false_eq_true, if_false,
      Option.some_bind] at h
    obtain ⟨q, hq, h3⟩ := Option.bind_eq_some.mp h
    obtain ⟨a1', ha1, hq2⟩ := Option.map_eq_some'.mp hq
    have hfa' : A.is_finalized a1' = false := by
      rw [hA3 a0 x a1' ha1]; exact hfa
    by_cases hfb : B.is_finalized b0
    · rw [if_pos hfb] at hq2
      subst hq2
      obtain ⟨hs2, hlen, hpres⟩ := ih a1' buf hfa' pst h3
      refine ⟨hs2, by simp only [List.length_cons]; omega, fun _ => hpres hfb⟩
    · have hfb' : B.is_finalized b0 = false := by simpa using hfb
      rw [if_neg hfb] at hq2
      subst hq2
      obtain ⟨hs2, hlen, hpres⟩ := ih a1' (buf ++ [x]) hfa' pst h3
      have hlen' : (buf ++ [x]).length = buf.length + 1 := by simp
      refine ⟨hs2, by simp only [List.length_cons]; omega,
        fun hh => absurd hh hfb⟩

theorem pipeFinalize_buf_cases {From Middle : Type u} {To : Type v}
    {A : Impl From Middle} {B : Impl Middle To} {p p' : PipeState A B}
    (h : pipeFinalize A B p = some p') :
    (B.is_finalized p.s2 = true ∧ p'.buf = p.buf) ∨ p'.buf = [] := by
  obtain ⟨s1', hs1, hrest⟩ := Option.bind_eq_some.mp h
  by_cases hfb : B.is_finalized p.s2
  · rw [if_pos hfb] at hrest
    cases Option.some.inj hrest
    exact Or.inl ⟨hfb, rfl⟩
  · rw [if_neg hfb] at hrest
    obtain ⟨s2', hd, hrest2⟩ := Option.bind_eq_some.mp hrest
    obtain ⟨s2'', hfin, hp'⟩ := Option.map_eq_some'.mp hrest2
    subst hp'
    exact Or.inr rfl

/-- Claim C8: for every pipeline and every run of `step` calls followed
by one `finalize` (that do not throw), the internal buffer never exceeds
the number of samples stepped while `first` was unfinalized (zero if
`first` started finalized, at most one entry per sample otherwise), the
buffer is empty once `finalize` returns, and the `finalize` drain loop
feeds `second` exactly `first.transform` of each buffered sample in FIFO
(arrival) order — `drain` coincides with stepping `second` on the
buffered list front-first.  The only contract hypothesis is that
`first`'s `step` never flips its own finalized flag, which holds for
every transformer in the repository. -/
theorem c8_pipeline_buffer_bounded (F M T : Type) (A : Impl F M)
    (B : Impl M T) (a0 : A.σ) (b0 : B.σ) (hA3 : StepPreservesFlag A) :
    (∀ (ds : List F) (pst : PipeState A B),
      stepAll (Pipeline A B) (pipeInit A B a0 b0) ds = some pst →
      pst.buf.length ≤ (if A.is_finalized a0 = true then 0 else ds.length)) ∧
    (∀ (ds : List F) (pst pst' : PipeState A B),
      stepAll (Pipeline A B) (pipeInit A B a0 b0) ds = some pst →
      pipeFinalize A B pst = some pst' → pst'.buf = []) ∧
    (∀ (s1 : A.σ) (s2 : B.σ) (l : List F),
      drain A B s1 s2 l = stepAllVia B (fun y => A.transform s1 y) s2 l) := by
  have hreach : ∀ (ds : List F) (pst : PipeState A B),
      stepAll (Pipeline A B) (pipeInit A B a0 b0) ds = some pst →
      pst.buf.length ≤ (if A.is_finalized a0 = true then 0 else ds.length) ∧
        (B.is_finalized pst.s2 = true → pst.buf = []) := by
    intro ds pst h
    by_cases hfa : A.is_finalized a0
    · rw [if_pos hfa]
      by_cases hfb : B.is_finalized b0
      · have hinit : pipeInit A B a0 b0 = ⟨a0, b0, [], true⟩ := by
          simp [pipeInit, hfa, hfb]
        rw [hinit, stepAll_pipe_of_fin A B ds _ rfl] at h
        cases Option.some.inj h
        exact ⟨by simp, fun _ => rfl⟩
      · have hfb' : B.is_finalized b0 = false := by simpa using hfb
        have hinit : pipeInit A B a0 b0 = ⟨a0, b0, [], false⟩ := by
          simp [pipeInit, hfb']
        rw [hinit] at h
        obtain ⟨hs1, hbuf⟩ := stepAll_pipe_fit_inv hfa ds b0 [] pst h
        exact ⟨by simp [hbuf], fun _ => hbuf⟩
    · have hfa' : A.is_finalized a0 = false := by simpa using hfa
      rw [if_neg hfa]
      have hinit : pipeInit A B a0 b0 = ⟨a0, b0, [], false⟩ := by
        simp [pipeInit, hfa']
      rw [hinit] at h
      obtain ⟨hs2, hlen, hpres⟩ := stepAll_pipe_unfit_inv hA3 ds a0 [] hfa' pst h
      refine ⟨by simpa using hlen, fun hh => ?_⟩
      rw [hs2] at hh
      exact hpres hh
  refine ⟨fun ds pst h => (hreach ds pst h).1, fun ds pst pst' h hf => ?_,
    fun s1 s2 l => drain_eq_stepAllVia A B s1 l s2⟩
  rcases pipeFinalize_buf_cases hf with ⟨hfb2, hbuf⟩ | hbuf
  · rw [hbuf]
    exact (hreach ds pst h).2 hfb2
  · exact hbuf

/-- Witness for C8: a pipeline of two Binarizers stepped on
`["a", "b"]`; both samples are buffered (first child unfinalized), and
the buffer length is within the bound. -/
theorem c8_witness :
    (⟨⟨2, [(aStr, 0), (bStr, 1)], false⟩, binInit, [aStr, bStr], false⟩ :
        PipeState (Binarizer String) (Binarizer (List ℚ))).buf.length ≤ 2 := by
  have h := (c8_pipeline_buffer_bounded String (List ℚ) (List ℚ)
    (Binarizer String) (Binarizer (List ℚ)) binInit binInit
    binarizer_step_flag).1 [aStr, bStr]
    ⟨⟨2, [(aStr, 0), (bStr, 1)], false⟩, binInit, [aStr, bStr], false⟩
    (by rfl)
  simp at h
  exact h

end Fastfea
